import Mathlib

/-!
Verification of the DeepFloorPlan raster post-processing pipeline
(`src/dfp/deploy.py`).

The pipeline works on fixed-size integer rasters.  We embed a raster of
height `h` and width `w` as a function `Fin h × Fin w → ℕ`.  The stages
implemented in `deploy.py` (`post_process`, `colorize`, `run_on_one`) are
translated directly from the source; the helper stages that `deploy.py`
imports from `dfp.utils.util`, `dfp.utils.rgb_ind_convertor` and `dfp.data`
(`fill_break_line`, `flood_fill`, `refine_room_region`, `ind2rgb`,
`convert_one_hot_to_image`) are not part of the provided sources and are
modelled from the specification, as indicated in their doc comments.
-/

namespace DFP

/-- A pixel position in an `h × w` raster. -/
abbrev Pos (h w : Nat) := Fin h × Fin w

/-- A single-channel integer raster (label map / mask). -/
abbrev Grid (h w : Nat) := Pos h w → Nat

/-- The structuring neighbourhood used by the morphological closing:
positions at Chebyshev distance at most 1 (a 3×3 box, clipped at the
image border).  It is reflexive and symmetric, which is all the
morphology proofs use. -/
def nearby {h w : Nat} (p q : Pos h w) : Prop :=
  Nat.dist p.1 q.1 ≤ 1 ∧ Nat.dist p.2 q.2 ≤ 1

instance {h w : Nat} (p q : Pos h w) : Decidable (nearby p q) := by
  unfold nearby; infer_instance

/-- The finite set of neighbours of `p` inside the raster. -/
def nbhd {h w : Nat} (p : Pos h w) : Finset (Pos h w) :=
  Finset.univ.filter (fun q => nearby p q)

lemma mem_nbhd {h w : Nat} {p q : Pos h w} : q ∈ nbhd p ↔ nearby p q := by
  simp [nbhd]

lemma nearby_refl {h w : Nat} (p : Pos h w) : nearby p p := by
  simp [nearby, Nat.dist_self]

lemma self_mem_nbhd {h w : Nat} (p : Pos h w) : p ∈ nbhd p :=
  mem_nbhd.mpr (nearby_refl p)

lemma nbhd_nonempty {h w : Nat} (p : Pos h w) : (nbhd p).Nonempty :=
  ⟨p, self_mem_nbhd p⟩

/-- Grayscale dilation: pointwise maximum over the structuring
neighbourhood. -/
def dilate {h w : Nat} (g : Grid h w) : Grid h w :=
  fun p => (nbhd p).sup g

/-- Grayscale erosion: pointwise minimum over the structuring
neighbourhood. -/
def erode {h w : Nat} (g : Grid h w) : Grid h w :=
  fun p => (nbhd p).inf' (nbhd_nonempty p) g

/-- Modelled from the spec: `fill_break_line` (imported by `deploy.py`
from `dfp.utils.util`, whose source is not provided).  Per spec §4.2 it
is a local morphological closing with a small structuring neighbourhood:
dilate the mask, then erode it back. -/
def fill_break_line {h w : Nat} (g : Grid h w) : Grid h w :=
  erode (dilate g)

/-- The 4-adjacency of raster cells (the connectivity used by the flood fill
and by connected-component analysis). -/
def adj {h w : Nat} (p q : Pos h w) : Prop :=
  Nat.dist p.1 q.1 + Nat.dist p.2 q.2 = 1

instance {h w : Nat} (p q : Pos h w) : Decidable (adj p q) := by
  unfold adj; infer_instance

/-- One breadth-first expansion step of a reachability computation: keep
the cells already reached and add every admissible cell adjacent to a
reached one. -/
def rstep {h w : Nat} (ok : Pos h w → Prop) [DecidablePred ok]
    (s : Finset (Pos h w)) : Finset (Pos h w) :=
  s ∪ Finset.univ.filter (fun p => ok p ∧ ∃ q ∈ s, adj q p)

/-- The set of cells reachable from the seed set `s0` through admissible
cells, obtained by iterating the expansion step `h * w` times (enough to
saturate, since the raster has `h * w` cells). -/
def reachN {h w : Nat} (ok : Pos h w → Prop) [DecidablePred ok]
    (s0 : Finset (Pos h w)) : Finset (Pos h w) :=
  (rstep ok)^[h * w] s0

/-- Declarative reachability: some seed cell is joined to `p` by a chain
of 4-adjacent admissible cells. -/
def ReachesFrom {h w : Nat} (ok : Pos h w → Prop) (s0 : Finset (Pos h w))
    (p : Pos h w) : Prop :=
  ∃ q ∈ s0, Relation.ReflTransGen (fun a b => adj a b ∧ ok b) q p

/-- A cell on the image border (the flood fill treats the border as
guaranteed exterior). -/
def isBorder {h w : Nat} (p : Pos h w) : Prop :=
  p.1.val = 0 ∨ p.1.val = h - 1 ∨ p.2.val = 0 ∨ p.2.val = w - 1

instance {h w : Nat} (p : Pos h w) : Decidable (isBorder p) := by
  unfold isBorder; infer_instance

/-- The flood-fill seed: every border cell that is unset in the input
mask. -/
def floodSeed {h w : Nat} (g : Grid h w) : Finset (Pos h w) :=
  Finset.univ.filter (fun p => isBorder p ∧ g p = 0)

/-- The set of confirmed-exterior cells: unset cells reached from the
border by the 4-connected flood fill. -/
def exteriorSet {h w : Nat} (g : Grid h w) : Finset (Pos h w) :=
  reachN (fun p => g p = 0) (floodSeed g)

/-- Modelled from the spec: `flood_fill` (imported by `deploy.py` from
`dfp.utils.util`, whose source is not provided).  Per spec §4.3: border
cells are exterior seeds, a 4-connected flood fill across unset cells
marks confirmed exterior, every unset cell not reached is an enclosed
hole and is set to interior; output is the binary full-footprint mask
(1 = interior-or-boundary, 0 = true exterior).  `deploy.py` scales the
mask to 255 before the call and divides by 255 after; the scaling
cancels against the division, so the model works directly with the
0/1-valued mask ("set" meaning non-zero). -/
def flood_fill {h w : Nat} (g : Grid h w) : Grid h w :=
  fun p => if g p ≠ 0 then 1 else if p ∈ exteriorSet g then 0 else 1

/-- Cell `p` is joined to some unset border cell through unset cells. -/
def ReachesBorder {h w : Nat} (g : Grid h w) (p : Pos h w) : Prop :=
  ReachesFrom (fun q => g q = 0) (floodSeed g) p

/-- Coercion of a label map to a 0/1 mask by the `> 0` threshold
(`deploy.py` lines 115–118: `hard_c`, `rm_mask`). -/
def binarize {h w : Nat} (g : Grid h w) : Grid h w :=
  fun p => if g p = 0 then 0 else 1

/-- The repaired close-wall mask of `post_process`
(`cw_mask = fill_break_line((bd_ind > 0).astype(uint8))`). -/
def cw_maskOf {h w : Nat} (bd : Grid h w) : Grid h w :=
  fill_break_line (binarize bd)

/-- The provisional footprint of `post_process`:
`fuse_mask = cw_mask + rm_mask; fuse_mask[fuse_mask >= 1] = 255`. -/
def fuse0 {h w : Nat} (rm bd : Grid h w) : Grid h w :=
  fun p => if 1 ≤ cw_maskOf bd p + binarize rm p then 255 else 0

/-- The full-footprint mask of `post_process` after hole filling and
rescaling to 0/1 (`fuse_mask = flood_fill(fuse_mask); fuse_mask // 255`). -/
def fuse_mask {h w : Nat} (rm bd : Grid h w) : Grid h w :=
  flood_fill (fuse0 rm bd)

/-- The 4-connected component of `p` through non-barrier cells (cells
where the close-wall mask is zero). -/
def component {h w : Nat} (cw : Grid h w) (p : Pos h w) : Finset (Pos h w) :=
  reachN (fun q => cw q = 0) {p}

/-- How many cells of `S` carry room label `v`. -/
def labelCount {h w : Nat} (rm : Grid h w) (S : Finset (Pos h w)) (v : Nat) : Nat :=
  (S.filter (fun q => rm q = v)).card

/-- Among an ascending list of candidate labels, keep the one with the
strictly largest occurrence count in `S` (ties keep the earlier, hence
lower, label); `0` when there is no candidate. -/
def pickFrom {h w : Nat} (rm : Grid h w) (S : Finset (Pos h w)) : List Nat → Nat
  | [] => 0
  | v :: vs =>
    vs.foldl (fun b u => if labelCount rm S b < labelCount rm S u then u else b) v

/-- The most frequent non-zero room label among the cells of `S` (ties
broken by the lowest label value); `0` when `S` carries no non-zero
label. -/
def pickLabel {h w : Nat} (rm : Grid h w) (S : Finset (Pos h w)) : Nat :=
  pickFrom rm S (((S.image rm).erase 0).sort (· ≤ ·))

/-- Modelled from the spec: `refine_room_region` (imported by `deploy.py`
from `dfp.utils.util`, whose source is not provided).  Per spec §4.4:
compute the 4-connected components of the non-barrier cells (cells where
the close-wall mask is zero; barrier cells are excluded from every
component), assign every cell of a component the most frequent non-zero
room label among its members (ties to the lowest label), leave all-zero
components at zero; barrier cells belong to no component, receive no
label and stay at the initial zero. -/
def refine_room_region {h w : Nat} (cw rm : Grid h w) : Grid h w :=
  fun p => if cw p = 0 then pickLabel rm (component cw p) else 0

/-- The function `post_process` from `deploy.py` (lines 111–137): build the repaired
close-wall mask and the fused, hole-filled footprint, refine the room
map one-label-per-region, zero it outside the footprint, and repair the
boundary label map. -/
def post_process {h w : Nat} (rm bd : Grid h w) : Grid h w × Grid h w :=
  (fun p => fuse_mask rm bd p * refine_room_region (cw_maskOf bd) rm p,
   fill_break_line bd)

/-- First in-place sentinel update of `run_on_one`: `cw[cw == 1] = 9`. -/
def remapWall {h w : Nat} (g : Grid h w) : Grid h w :=
  fun p => if g p = 1 then 9 else g p

/-- Second in-place sentinel update of `run_on_one`: `cw[cw == 2] = 10`. -/
def remapOpening {h w : Nat} (g : Grid h w) : Grid h w :=
  fun p => if g p = 2 then 10 else g p

/-- The boundary map after both sentinel updates of `run_on_one`. -/
def remapBoundary {h w : Nat} (g : Grid h w) : Grid h w :=
  remapOpening (remapWall g)

/-- The room-map contribution to the non-colorized composite: the room
map after the in-place zeroing `r[cw != 0] = 0` (performed after the
sentinel updates of `cw`). -/
def roomContrib {h w : Nat} (r cw : Grid h w) : Grid h w :=
  fun p => if remapBoundary cw p ≠ 0 then 0 else r p

/-- The final non-colorized composite of `run_on_one`
(`cw[cw == 1] = 9; cw[cw == 2] = 10; r[cw != 0] = 0; r + cw`). -/
def compositeGray {h w : Nat} (r cw : Grid h w) : Grid h w :=
  fun p => roomContrib r cw p + remapBoundary cw p

/-- An RGB pixel. -/
abbrev RGB := Nat × Nat × Nat

/-- Pixelwise sum of two RGB values (the `+` of the colorized paths). -/
def addRGB (a b : RGB) : RGB :=
  (a.1 + b.1, a.2.1 + b.2.1, a.2.2 + b.2.2)

/-- A label → RGB lookup table (`floorplan_fuse_map`,
`floorplan_boundary_map`; their concrete entries live in
`dfp.utils.rgb_ind_convertor`, which is not provided, so tables are kept
as parameters). -/
abbrev ColorMap := Nat → RGB

/-- An RGB raster. -/
abbrev CImage (h w : Nat) := Pos h w → RGB

/-- Modelled from the spec: `ind2rgb` (imported by `deploy.py` from
`dfp.utils.rgb_ind_convertor`, whose source is not provided).  Per spec
§4.5 it translates a label map through a fixed label → RGB lookup table,
pixel by pixel. -/
def ind2rgb {h w : Nat} (g : Grid h w) (cmap : ColorMap) : CImage h w :=
  fun p => cmap (g p)

/-- The function `colorize` from `deploy.py` (lines 140–144): translate the room map
and the boundary map through their own lookup tables, independently. -/
def colorize {h w : Nat} (r cw : Grid h w) (rmap bmap : ColorMap) :
    CImage h w × CImage h w :=
  (ind2rgb r rmap, ind2rgb cw bmap)

/-- The value returned by `run_on_one`: a 2-D integer label image
(height × width) on the non-colorized paths, a 3-D height × width × 3
RGB image on the colorized paths. -/
inductive FPResult (h w : Nat) where
  | gray (g : Grid h w)
  | rgb (c : CImage h w)

/-- The post-decode dispatch of `run_on_one` from `deploy.py`
(lines 167–185), over the two flags and the two decoded label maps
`r` (room) and `cw` (boundary).  The color tables are parameters (their
concrete entries are outside the provided sources). -/
def run_on_one {h w : Nat} (postprocess cz : Bool) (rmap bmap : ColorMap)
    (r cw : Grid h w) : FPResult h w :=
  if cz = false ∧ postprocess = false then
    FPResult.gray (compositeGray r cw)
  else if cz = true ∧ postprocess = false then
    FPResult.rgb (fun p =>
      addRGB ((colorize r cw rmap bmap).1 p) ((colorize r cw rmap bmap).2 p))
  else
    let nr := post_process r cw
    if cz = false then
      FPResult.gray (compositeGray nr.1 nr.2)
    else
      FPResult.rgb (fun p =>
        addRGB ((colorize nr.1 nr.2 rmap bmap).1 p) ((colorize nr.1 nr.2 rmap bmap).2 p))

/-- The room map that `run_on_one` hands to `colorize` on the colorized
paths: the post-processed room map when `postprocess` is set (line 182),
the raw decoded room map otherwise (line 173). -/
def roomMapForColorize {h w : Nat} (postprocess : Bool) (r cw : Grid h w) :
    Grid h w :=
  if postprocess then (post_process r cw).1 else r

/-- The maximum of a list of scores, `none` on the empty list. -/
def maxScore : List Int → Option Int
  | [] => none
  | x :: xs =>
    match maxScore xs with
    | none => some x
    | some m => some (max x m)

/-- The index of the first maximum-scoring entry of a score list
(`0` on the empty list): the head wins when it is at least the maximum
of the tail. -/
def argmaxIdx : List Int → Nat
  | [] => 0
  | x :: xs => if (maxScore xs).getD x ≤ x then 0 else argmaxIdx xs + 1

/-- A score tensor is well-formed when it is rectangular and non-empty:
at least one row, every row of the same positive width, every cell of
the same positive channel count. -/
def WellFormed (t : List (List (List Int))) : Prop :=
  t ≠ [] ∧ (t.headD []).length ≠ 0 ∧ ((t.headD []).headD []).length ≠ 0 ∧
    ∀ row ∈ t, row.length = (t.headD []).length ∧
      ∀ cell ∈ row, cell.length = ((t.headD []).headD []).length

instance (t : List (List (List Int))) : Decidable (WellFormed t) := by
  unfold WellFormed; infer_instance

/-- Modelled from the spec: `convert_one_hot_to_image` (imported by
`deploy.py` from `dfp.data`, whose source is not provided).  Per spec
§4.1: given a height × width × C tensor of per-pixel class scores,
produce the label map of per-pixel argmax channel indices; fail with an
InvalidInput error when the dimensions are not rectangular and
non-empty. -/
def convert_one_hot_to_image (t : List (List (List Int))) :
    Except String (List (List Nat)) :=
  if WellFormed t then Except.ok (t.map (fun row => row.map argmaxIdx))
  else Except.error "InvalidInput"

/-- The single pixel of a 1×1 raster. -/
def p11 : Pos 1 1 := (0, 0)

/-- A 1×1 room map holding label 3. -/
def gRoom3 : Grid 1 1 := fun _ => 3

/-- A 1×1 boundary map holding wall label 1. -/
def gWall1 : Grid 1 1 := fun _ => 1

/-- A 1×1 all-zero raster. -/
def gZero11 : Grid 1 1 := fun _ => 0

/-- A 1×1 room map holding label 5. -/
def gRoom5 : Grid 1 1 := fun _ => 5

/-- A demonstration room color table sending label `v` to `(v, 0, 0)`
(label 0 goes to black). -/
def rmapDemo : ColorMap := fun v => (v, 0, 0)

/-- A demonstration boundary color table sending label `v` to
`(0, v, 0)`. -/
def bmapDemo : ColorMap := fun v => (0, v, 0)

/-- The centre pixel of a 3×3 raster. -/
def center33 : Pos 3 3 := (1, 1)

/-- Scenario C room map: every pixel labeled 1 except the centre, which
both classifiers left unlabeled. -/
def rmScenC : Grid 3 3 := fun p => if p = center33 then 0 else 1

/-- Scenario C boundary map: no boundary pixels. -/
def bdScenC : Grid 3 3 := fun _ => 0

/-- A concrete well-formed 1×1×3 score tensor. -/
def tensDemo : List (List (List Int)) := [[[1, 5, 2]]]

end DFP

namespace DFP

lemma nearby_symm {h w : Nat} {p q : Pos h w} (hpq : nearby p q) : nearby q p := by
  obtain ⟨h1, h2⟩ := hpq
  exact ⟨by rwa [Nat.dist_comm], by rwa [Nat.dist_comm]⟩

lemma le_dilate {h w : Nat} (g : Grid h w) {p q : Pos h w} (hq : q ∈ nbhd p) :
    g q ≤ dilate g p :=
  Finset.le_sup hq

lemma erode_le {h w : Nat} (g : Grid h w) {p q : Pos h w} (hq : q ∈ nbhd p) :
    erode g p ≤ g q :=
  Finset.inf'_le g hq

/-- Closing is extensive: every pixel value can only grow. -/
lemma le_fill_break_line {h w : Nat} (g : Grid h w) (p : Pos h w) :
    g p ≤ fill_break_line g p := by
  unfold fill_break_line erode
  apply Finset.le_inf'
  intro q hq
  exact le_dilate g (mem_nbhd.mpr (nearby_symm (mem_nbhd.mp hq)))

/-- Opening is anti-extensive. -/
lemma dilate_erode_le {h w : Nat} (g : Grid h w) (p : Pos h w) :
    dilate (erode g) p ≤ g p := by
  unfold dilate
  apply Finset.sup_le
  intro q hq
  exact erode_le g (mem_nbhd.mpr (nearby_symm (mem_nbhd.mp hq)))

lemma dilate_mono {h w : Nat} {g g' : Grid h w} (hg : ∀ p, g p ≤ g' p)
    (p : Pos h w) : dilate g p ≤ dilate g' p := by
  unfold dilate
  apply Finset.sup_le
  intro q hq
  exact le_trans (hg q) (Finset.le_sup hq)

/-- The key absorption law `δ ∘ ε ∘ δ = δ` behind idempotence of the
closing. -/
lemma dilate_erode_dilate {h w : Nat} (g : Grid h w) :
    dilate (erode (dilate g)) = dilate g := by
  funext p
  apply le_antisymm
  · exact dilate_erode_le (dilate g) p
  · exact dilate_mono (fun q => le_fill_break_line g q) p

lemma subset_rstep {h w : Nat} (ok : Pos h w → Prop) [DecidablePred ok]
    (s : Finset (Pos h w)) : s ⊆ rstep ok s :=
  Finset.subset_union_left

lemma rstep_fixed_iterate {h w : Nat} (ok : Pos h w → Prop) [DecidablePred ok]
    {s : Finset (Pos h w)} (hs : rstep ok s = s) (k : Nat) :
    (rstep ok)^[k] s = s := by
  induction k with
  | zero => rfl
  | succ k ih => rw [Function.iterate_succ_apply', ih, hs]

lemma iterate_subset_succ {h w : Nat} (ok : Pos h w → Prop) [DecidablePred ok]
    (s0 : Finset (Pos h w)) (n : Nat) :
    (rstep ok)^[n] s0 ⊆ (rstep ok)^[n + 1] s0 := by
  rw [Function.iterate_succ_apply']
  exact subset_rstep ok _

lemma card_le_iterate {h w : Nat} (ok : Pos h w → Prop) [DecidablePred ok]
    (s0 : Finset (Pos h w))
    (hne : ∀ m : Nat, m ≤ h * w → rstep ok ((rstep ok)^[m] s0) ≠ (rstep ok)^[m] s0) :
    ∀ m : Nat, m ≤ h * w + 1 → m ≤ ((rstep ok)^[m] s0).card := by
  intro m
  induction m with
  | zero => intro _; exact Nat.zero_le _
  | succ m ih =>
    intro hm
    have hm' : m ≤ h * w := Nat.lt_succ_iff.mp (Nat.lt_of_lt_of_le (Nat.lt_succ_self m) hm)
    have hsub : (rstep ok)^[m] s0 ⊂ (rstep ok)^[m + 1] s0 := by
      rw [Function.iterate_succ_apply']
      exact Finset.ssubset_iff_subset_ne.mpr
        ⟨subset_rstep ok _, fun he => hne m hm' he.symm⟩
    have hcard := Finset.card_lt_card hsub
    have := ih (Nat.le_of_succ_le hm)
    omega

lemma card_pos_fintype {h w : Nat} : Fintype.card (Pos h w) = h * w := by
  simp [Fintype.card_prod]

/-- The iterated expansion saturates within `h * w` steps: `reachN` is a
fixed point of the expansion step. -/
lemma rstep_reachN {h w : Nat} (ok : Pos h w → Prop) [DecidablePred ok]
    (s0 : Finset (Pos h w)) : rstep ok (reachN ok s0) = reachN ok s0 := by
  by_cases hfix : ∃ m : Nat, m ≤ h * w ∧ rstep ok ((rstep ok)^[m] s0) = (rstep ok)^[m] s0
  · obtain ⟨m, hm, hfx⟩ := hfix
    have hiter : (rstep ok)^[h * w] s0 = (rstep ok)^[m] s0 := by
      obtain ⟨k, hk⟩ := Nat.exists_eq_add_of_le hm
      rw [hk, Nat.add_comm, Function.iterate_add_apply]
      exact rstep_fixed_iterate ok hfx k
    unfold reachN
    rw [hiter, hfx]
  · push_neg at hfix
    exfalso
    have hall : ∀ m : Nat, m ≤ h * w → rstep ok ((rstep ok)^[m] s0) ≠ (rstep ok)^[m] s0 :=
      fun m hm => hfix m hm
    have hbig := card_le_iterate ok s0 hall (h * w + 1) (le_refl _)
    have hle : ((rstep ok)^[h * w + 1] s0).card ≤ h * w := by
      calc ((rstep ok)^[h * w + 1] s0).card ≤ Fintype.card (Pos h w) :=
            Finset.card_le_univ _
        _ = h * w := card_pos_fintype
    omega

lemma subset_reachN {h w : Nat} (ok : Pos h w → Prop) [DecidablePred ok]
    (s0 : Finset (Pos h w)) : s0 ⊆ reachN ok s0 := by
  unfold reachN
  induction (h * w) with
  | zero => exact Finset.Subset.refl s0
  | succ n ih => exact Finset.Subset.trans ih (iterate_subset_succ ok s0 n)

/-- Soundness of the iterated expansion: every cell it reaches is
declaratively reachable. -/
lemma iterate_sound {h w : Nat} (ok : Pos h w → Prop) [DecidablePred ok]
    (s0 : Finset (Pos h w)) (n : Nat) :
    ∀ p ∈ (rstep ok)^[n] s0, ReachesFrom ok s0 p := by
  induction n with
  | zero =>
    intro p hp
    exact ⟨p, hp, Relation.ReflTransGen.refl⟩
  | succ n ih =>
    intro p hp
    rw [Function.iterate_succ_apply'] at hp
    rcases Finset.mem_union.mp hp with hp' | hp'
    · exact ih p hp'
    · obtain ⟨hok, q, hq, hadj⟩ := (Finset.mem_filter.mp hp').2
      obtain ⟨s, hs, hchain⟩ := ih q hq
      exact ⟨s, hs, Relation.ReflTransGen.tail hchain ⟨hadj, hok⟩⟩

/-- Completeness: every declaratively reachable cell is found by the
iterated expansion. -/
lemma reaches_mem_reachN {h w : Nat} (ok : Pos h w → Prop) [DecidablePred ok]
    (s0 : Finset (Pos h w)) (p : Pos h w) (hp : ReachesFrom ok s0 p) :
    p ∈ reachN ok s0 := by
  obtain ⟨q, hq, hchain⟩ := hp
  induction hchain with
  | refl => exact subset_reachN ok s0 hq
  | tail _hab hbc ih =>
    rw [← rstep_reachN ok s0]
    apply Finset.mem_union_right
    apply Finset.mem_filter.mpr
    exact ⟨Finset.mem_univ _, hbc.2, _, ih, hbc.1⟩

/-- The computed reach set is exactly declarative reachability. -/
lemma mem_reachN_iff {h w : Nat} (ok : Pos h w → Prop) [DecidablePred ok]
    (s0 : Finset (Pos h w)) (p : Pos h w) :
    p ∈ reachN ok s0 ↔ ReachesFrom ok s0 p :=
  ⟨fun hp => iterate_sound ok s0 (h * w) p hp, reaches_mem_reachN ok s0 p⟩

/-- The two sequential sentinel updates amount to the simultaneous remap
1 → 9, 2 → 10 (the first update writes 9, so it neither creates nor
destroys cells of value 2). -/
lemma remapBoundary_eq {h w : Nat} (g : Grid h w) (p : Pos h w) :
    remapBoundary g p = if g p = 1 then 9 else if g p = 2 then 10 else g p := by
  unfold remapBoundary remapOpening remapWall
  split_ifs <;> omega

lemma remapBoundary_eq_zero_iff {h w : Nat} (g : Grid h w) (p : Pos h w) :
    remapBoundary g p = 0 ↔ g p = 0 := by
  rw [remapBoundary_eq]
  split_ifs with h1 h2
  · simp [h1]
  · simp [h2]
  · simp

lemma remapBoundary_values {h w : Nat} (g : Grid h w) (p : Pos h w)
    (hg : g p ≤ 2) :
    remapBoundary g p = 0 ∨ remapBoundary g p = 9 ∨ remapBoundary g p = 10 := by
  rw [remapBoundary_eq]
  split_ifs <;> omega

lemma roomContrib_of_boundary {h w : Nat} (r cw : Grid h w) (p : Pos h w)
    (hb : cw p ≠ 0) : roomContrib r cw p = 0 := by
  unfold roomContrib
  rw [if_pos]
  exact fun hz => hb ((remapBoundary_eq_zero_iff cw p).mp hz)

lemma compositeGray_of_boundary {h w : Nat} (r cw : Grid h w) (p : Pos h w)
    (hb : cw p ≠ 0) : compositeGray r cw p = remapBoundary cw p := by
  unfold compositeGray
  rw [roomContrib_of_boundary r cw p hb, Nat.zero_add]

lemma compositeGray_of_no_boundary {h w : Nat} (r cw : Grid h w) (p : Pos h w)
    (hb : cw p = 0) : compositeGray r cw p = r p := by
  have hz : remapBoundary cw p = 0 := (remapBoundary_eq_zero_iff cw p).mpr hb
  unfold compositeGray roomContrib
  rw [hz]
  simp

/-- The closing respects a uniform value bound. -/
lemma fill_break_line_le {h w : Nat} (g : Grid h w) (c : Nat)
    (hg : ∀ q, g q ≤ c) (p : Pos h w) : fill_break_line g p ≤ c := by
  unfold fill_break_line
  calc erode (dilate g) p ≤ dilate g p := erode_le (dilate g) (self_mem_nbhd p)
    _ ≤ c := Finset.sup_le (fun q _ => hg q)

lemma dilate_eq_zero_iff {h w : Nat} (g : Grid h w) (p : Pos h w) :
    dilate g p = 0 ↔ ∀ q ∈ nbhd p, g q = 0 := by
  constructor
  · intro hz q hq
    have h1 : g q ≤ dilate g p := le_dilate g hq
    omega
  · intro hall
    have h1 : dilate g p ≤ 0 := Finset.sup_le (fun q hq => le_of_eq (hall q hq))
    omega

lemma erode_eq_zero_iff {h w : Nat} (g : Grid h w) (p : Pos h w) :
    erode g p = 0 ↔ ∃ q ∈ nbhd p, g q = 0 := by
  constructor
  · intro hz
    obtain ⟨q, hq, he⟩ := Finset.exists_mem_eq_inf' (nbhd_nonempty p) g
    have h1 : erode g p = g q := he
    exact ⟨q, hq, by omega⟩
  · rintro ⟨q, hq, hgq⟩
    have h1 : erode g p ≤ g q := erode_le g hq
    omega

lemma binarize_eq_zero_iff {h w : Nat} (g : Grid h w) (p : Pos h w) :
    binarize g p = 0 ↔ g p = 0 := by
  unfold binarize
  split_ifs with hp <;> simp [hp]

/-- The closing of a label map and the closing of its 0/1 coercion have
the same support. -/
lemma fill_break_line_zero_iff_binarize {h w : Nat} (g : Grid h w) (p : Pos h w) :
    fill_break_line g p = 0 ↔ fill_break_line (binarize g) p = 0 := by
  unfold fill_break_line
  rw [erode_eq_zero_iff, erode_eq_zero_iff]
  constructor
  · rintro ⟨q, hq, hdq⟩
    refine ⟨q, hq, ?_⟩
    rw [dilate_eq_zero_iff] at hdq ⊢
    intro s hs
    exact (binarize_eq_zero_iff g s).mpr (hdq s hs)
  · rintro ⟨q, hq, hdq⟩
    refine ⟨q, hq, ?_⟩
    rw [dilate_eq_zero_iff] at hdq ⊢
    intro s hs
    exact (binarize_eq_zero_iff g s).mp (hdq s hs)

lemma flood_fill_eq_zero_iff {h w : Nat} (g : Grid h w) (p : Pos h w) :
    flood_fill g p = 0 ↔ (g p = 0 ∧ p ∈ exteriorSet g) := by
  unfold flood_fill
  split_ifs with h1 h2 <;> simp_all

lemma fuse0_eq_zero_iff {h w : Nat} (rm bd : Grid h w) (p : Pos h w) :
    fuse0 rm bd p = 0 ↔ (cw_maskOf bd p = 0 ∧ binarize rm p = 0) := by
  unfold fuse0
  split_ifs with h1
  · constructor
    · intro hz; exact hz.elim
    · rintro ⟨ha, hb⟩; omega
  · constructor
    · intro _; constructor <;> omega
    · intro _; trivial

lemma fuse_mask_zero_parts {h w : Nat} (rm bd : Grid h w) (p : Pos h w)
    (hz : fuse_mask rm bd p = 0) :
    cw_maskOf bd p = 0 ∧ binarize rm p = 0 ∧ p ∈ exteriorSet (fuse0 rm bd) := by
  obtain ⟨h0, hext⟩ := (flood_fill_eq_zero_iff (fuse0 rm bd) p).mp hz
  obtain ⟨hcw, hrm⟩ := (fuse0_eq_zero_iff rm bd p).mp h0
  exact ⟨hcw, hrm, hext⟩

/-- Where the repaired binary close-wall mask is zero, the repaired
boundary label map is zero too (they have the same support). -/
lemma fill_break_line_zero_of_cw_mask {h w : Nat} (bd : Grid h w) (p : Pos h w)
    (hcw : cw_maskOf bd p = 0) : fill_break_line bd p = 0 :=
  (fill_break_line_zero_iff_binarize bd p).mpr hcw

lemma post_process_fst {h w : Nat} (rm bd : Grid h w) (p : Pos h w) :
    (post_process rm bd).1 p =
      fuse_mask rm bd p * refine_room_region (cw_maskOf bd) rm p := rfl

lemma post_process_snd {h w : Nat} (rm bd : Grid h w) :
    (post_process rm bd).2 = fill_break_line bd := rfl

end DFP

/-- C1: in the final non-colorized composite (the shape shared by the
postprocess=false and postprocess=true paths of `run_on_one`), every
pixel equals either the room-map contribution or the remapped boundary
sentinel, and wherever the boundary map is non-zero the room
contribution at that pixel is zero (so the pixel is never a non-zero sum
of both). -/
theorem DFP.composite_mutual_exclusion {h w : Nat} (r cw : DFP.Grid h w)
    (p : DFP.Pos h w) :
    (DFP.compositeGray r cw p = DFP.roomContrib r cw p ∨
      DFP.compositeGray r cw p = DFP.remapBoundary cw p) ∧
    (cw p ≠ 0 →
      DFP.roomContrib r cw p = 0 ∧
      DFP.compositeGray r cw p = DFP.remapBoundary cw p) := by
  constructor
  · by_cases hb : cw p = 0
    · left
      rw [DFP.compositeGray_of_no_boundary r cw p hb]
      unfold DFP.roomContrib
      rw [if_neg]
      intro hne
      exact hne ((DFP.remapBoundary_eq_zero_iff cw p).mpr hb)
    · right
      exact DFP.compositeGray_of_boundary r cw p hb
  · intro hb
    exact ⟨DFP.roomContrib_of_boundary r cw p hb,
      DFP.compositeGray_of_boundary r cw p hb⟩

/-- Witness for C1 at a concrete 1×1 input with room label 3 and wall
label 1. -/
theorem DFP.composite_mutual_exclusion_witness :
    DFP.gWall1 DFP.p11 ≠ 0 ∧
    (DFP.roomContrib DFP.gRoom3 DFP.gWall1 DFP.p11 = 0 ∧
      DFP.compositeGray DFP.gRoom3 DFP.gWall1 DFP.p11 =
        DFP.remapBoundary DFP.gWall1 DFP.p11) :=
  ⟨by decide, (DFP.composite_mutual_exclusion DFP.gRoom3 DFP.gWall1 DFP.p11).2 (by decide)⟩

/-- C7: Boundary Repair (`fill_break_line`) is monotone: every pixel value
of the input is dominated by the corresponding output pixel, so every set
pixel of a binary mask remains set; the output raster has the same
`h × w` dimensions by construction (it is again a `Grid h w`). -/
theorem DFP.fill_break_line_monotone {h w : Nat} (g : DFP.Grid h w) (p : DFP.Pos h w) :
    g p ≤ DFP.fill_break_line g p :=
  DFP.le_fill_break_line g p

/-- C8: Boundary Repair (`fill_break_line`) is idempotent: applying the
closing twice yields exactly the same raster as applying it once. -/
theorem DFP.fill_break_line_idempotent {h w : Nat} (g : DFP.Grid h w) :
    DFP.fill_break_line (DFP.fill_break_line g) = DFP.fill_break_line g := by
  show DFP.erode (DFP.dilate (DFP.erode (DFP.dilate g))) = DFP.erode (DFP.dilate g)
  rw [DFP.dilate_erode_dilate]

/-- C4: with postprocess=true, every pixel of the final refined
non-colorized composite that lies outside the full-footprint mask of
Mask Fusion & Hole Fill is zero: the refined room map is multiplied by
the footprint mask and the repaired boundary map vanishes outside the
footprint as well. -/
theorem DFP.footprint_invariant {h w : Nat} (rm bd : DFP.Grid h w)
    (p : DFP.Pos h w) (hout : DFP.fuse_mask rm bd p = 0) :
    DFP.compositeGray (DFP.post_process rm bd).1 (DFP.post_process rm bd).2 p = 0 := by
  obtain ⟨hcw, -, -⟩ := DFP.fuse_mask_zero_parts rm bd p hout
  have hsnd : (DFP.post_process rm bd).2 p = 0 :=
    DFP.fill_break_line_zero_of_cw_mask bd p hcw
  rw [DFP.compositeGray_of_no_boundary _ _ p hsnd, DFP.post_process_fst, hout,
    Nat.zero_mul]

/-- Witness for C4 at a concrete 1×1 all-zero input, whose single border
pixel is confirmed exterior. -/
theorem DFP.footprint_invariant_witness :
    DFP.fuse_mask DFP.gZero11 DFP.gZero11 DFP.p11 = 0 ∧
    DFP.compositeGray (DFP.post_process DFP.gZero11 DFP.gZero11).1
      (DFP.post_process DFP.gZero11 DFP.gZero11).2 DFP.p11 = 0 :=
  ⟨by decide, DFP.footprint_invariant DFP.gZero11 DFP.gZero11 DFP.p11 (by decide)⟩

/-- C5: Mask Fusion & Hole Fill produces exactly the union of the
room-occupancy mask and the repaired boundary mask plus the enclosed
holes — the cells with no 4-connected path of unset cells to an unset
border cell; reachable unset cells stay exterior (the mask is 0/1
valued, so `≠ 1` means `= 0`).  In particular a single unlabeled pixel
fully surrounded by labeled pixels, with no path to the border, is
marked interior. -/
theorem DFP.mask_fusion_hole_fill :
    (∀ (h w : Nat) (rm bd : DFP.Grid h w) (p : DFP.Pos h w),
      (DFP.fuse_mask rm bd p = 0 ∨ DFP.fuse_mask rm bd p = 1) ∧
      (DFP.fuse_mask rm bd p = 1 ↔
        (DFP.binarize rm p ≠ 0 ∨ DFP.cw_maskOf bd p ≠ 0 ∨
          ¬ DFP.ReachesBorder (DFP.fuse0 rm bd) p))) ∧
    (DFP.rmScenC DFP.center33 = 0 ∧ DFP.bdScenC DFP.center33 = 0 ∧
      DFP.fuse_mask DFP.rmScenC DFP.bdScenC DFP.center33 = 1) := by
  constructor
  · intro h w rm bd p
    constructor
    · unfold DFP.fuse_mask DFP.flood_fill
      split_ifs <;> simp
    · by_cases h0 : DFP.fuse0 rm bd p = 0
      · obtain ⟨hcw, hrm⟩ := (DFP.fuse0_eq_zero_iff rm bd p).mp h0
        have hmem : p ∈ DFP.exteriorSet (DFP.fuse0 rm bd) ↔
            DFP.ReachesBorder (DFP.fuse0 rm bd) p :=
          DFP.mem_reachN_iff _ _ p
        unfold DFP.fuse_mask DFP.flood_fill
        rw [if_neg (not_not.mpr h0)]
        split_ifs with hext
        · simp [hrm, hcw, hmem.mp hext]
        · have hnr : ¬ DFP.ReachesBorder (DFP.fuse0 rm bd) p :=
            fun hr => hext (hmem.mpr hr)
          simp [hrm, hcw, hnr]
      · have h1 : DFP.fuse_mask rm bd p = 1 := by
          unfold DFP.fuse_mask DFP.flood_fill
          rw [if_pos h0]
        have hor : DFP.binarize rm p ≠ 0 ∨ DFP.cw_maskOf bd p ≠ 0 := by
          by_contra hc
          push_neg at hc
          exact h0 ((DFP.fuse0_eq_zero_iff rm bd p).mpr ⟨hc.2, hc.1⟩)
        constructor
        · intro _
          rcases hor with hh | hh
          · exact Or.inl hh
          · exact Or.inr (Or.inl hh)
        · intro _
          exact h1
  · refine ⟨rfl, rfl, ?_⟩
    decide

namespace DFP

/-- A fold that always keeps either its accumulator or the new element
lands on a member of the extended list. -/
lemma foldl_choice_mem (f : Nat → Nat → Nat)
    (hf : ∀ b u, f b u = b ∨ f b u = u) :
    ∀ (vs : List Nat) (v : Nat), vs.foldl f v = v ∨ vs.foldl f v ∈ vs := by
  intro vs
  induction vs with
  | nil => intro v; exact Or.inl rfl
  | cons u vs ih =>
    intro v
    rw [List.foldl_cons]
    rcases ih (f v u) with hh | hh
    · rw [hh]
      rcases hf v u with h2 | h2
      · exact Or.inl h2
      · right
        rw [h2]
        exact List.mem_cons_self u vs
    · right
      exact List.mem_cons_of_mem u hh

lemma pickFrom_zero_or_mem {h w : Nat} (rm : Grid h w) (S : Finset (Pos h w))
    (l : List Nat) : pickFrom rm S l = 0 ∨ pickFrom rm S l ∈ l := by
  cases l with
  | nil => exact Or.inl rfl
  | cons v vs =>
    have hch : ∀ b u : Nat,
        (if labelCount rm S b < labelCount rm S u then u else b) = b ∨
        (if labelCount rm S b < labelCount rm S u then u else b) = u := by
      intro b u
      split_ifs
      exacts [Or.inr rfl, Or.inl rfl]
    rcases foldl_choice_mem _ hch vs v with hh | hh
    · right
      show vs.foldl _ v ∈ v :: vs
      rw [hh]
      exact List.mem_cons_self v vs
    · right
      exact List.mem_cons_of_mem v hh

/-- The value of `pickLabel` is 0 or a label carried by some cell of `S`. -/
lemma pickLabel_zero_or_mem {h w : Nat} (rm : Grid h w) (S : Finset (Pos h w)) :
    pickLabel rm S = 0 ∨ ∃ q ∈ S, rm q = pickLabel rm S := by
  rcases pickFrom_zero_or_mem rm S (((S.image rm).erase 0).sort (· ≤ ·)) with hh | hh
  · exact Or.inl hh
  · right
    have h1 : pickLabel rm S ∈ (S.image rm).erase 0 :=
      (Finset.mem_sort (· ≤ ·)).mp hh
    obtain ⟨q, hq, hrmq⟩ := Finset.mem_image.mp (Finset.mem_of_mem_erase h1)
    exact ⟨q, hq, hrmq⟩

end DFP

/-- C6: Region Refinement never invents a room label: every non-zero
value of the refined room map already occurs somewhere in the input room
map (refinement only reassigns or propagates existing labels; zero is
the background value, not a room label). -/
theorem DFP.refine_no_new_labels {h w : Nat} (cw rm : DFP.Grid h w)
    (p : DFP.Pos h w) (hne : DFP.refine_room_region cw rm p ≠ 0) :
    ∃ q, DFP.refine_room_region cw rm p = rm q := by
  unfold DFP.refine_room_region at hne ⊢
  split_ifs at hne ⊢ with hcw
  · rcases DFP.pickLabel_zero_or_mem rm (DFP.component cw p) with hh | hh
    · exact absurd hh hne
    · obtain ⟨q, _, hrmq⟩ := hh
      exact ⟨q, hrmq.symm⟩
  · exact absurd rfl hne

/-- Witness for C6 at a concrete 1×1 input: no barrier, room label 5,
so the refined map carries 5, a label of the input map. -/
theorem DFP.refine_no_new_labels_witness :
    DFP.refine_room_region DFP.gZero11 DFP.gRoom5 DFP.p11 ≠ 0 ∧
    ∃ q, DFP.refine_room_region DFP.gZero11 DFP.gRoom5 DFP.p11 = DFP.gRoom5 q :=
  have h5 : DFP.refine_room_region DFP.gZero11 DFP.gRoom5 DFP.p11 = 5 := by
    unfold DFP.refine_room_region
    rw [if_pos (show DFP.gZero11 DFP.p11 = 0 from rfl)]
    unfold DFP.pickLabel
    have himg : ((DFP.component DFP.gZero11 DFP.p11).image DFP.gRoom5).erase 0 =
        {5} := by decide
    rw [himg, Finset.sort_singleton]
    rfl
  have hne : DFP.refine_room_region DFP.gZero11 DFP.gRoom5 DFP.p11 ≠ 0 := by
    rw [h5]
    omega
  ⟨hne, DFP.refine_no_new_labels DFP.gZero11 DFP.gRoom5 DFP.p11 hne⟩

/-- C3: the pipeline controller is a pure four-way dispatch over the two
independent flags: with neither flag the non-colorized composite of the
raw decoded maps; with colorize only the colorized composite of the raw
decoded maps (no repair/fill/refinement runs); with postprocess only the
post-processing stages followed by the non-colorized composite of the
refined maps; with both flags the post-processing stages followed by the
colorized composite of the refined maps. -/
theorem DFP.pipeline_dispatch {h w : Nat} (rmap bmap : DFP.ColorMap)
    (r cw : DFP.Grid h w) :
    DFP.run_on_one false false rmap bmap r cw =
      DFP.FPResult.gray (DFP.compositeGray r cw) ∧
    DFP.run_on_one false true rmap bmap r cw =
      DFP.FPResult.rgb (fun p =>
        DFP.addRGB ((DFP.colorize r cw rmap bmap).1 p)
          ((DFP.colorize r cw rmap bmap).2 p)) ∧
    DFP.run_on_one true false rmap bmap r cw =
      DFP.FPResult.gray
        (DFP.compositeGray (DFP.post_process r cw).1 (DFP.post_process r cw).2) ∧
    DFP.run_on_one true true rmap bmap r cw =
      DFP.FPResult.rgb (fun p =>
        DFP.addRGB
          ((DFP.colorize (DFP.post_process r cw).1 (DFP.post_process r cw).2 rmap bmap).1 p)
          ((DFP.colorize (DFP.post_process r cw).1 (DFP.post_process r cw).2 rmap bmap).2 p)) :=
  ⟨rfl, rfl, rfl, rfl⟩

/-- C2 counterexample: on the colorize-only path the room map handed to
the room color lookup is the raw decoded room map, with no zeroing where
the boundary map is non-zero.  At a concrete 1×1 input with room label 3
and wall label 1, the boundary map is non-zero at the pixel yet the room
map passed to the lookup is non-zero there too, and the summed output
adds a non-zero room color to a non-zero boundary color even though the
room table sends label 0 to black. -/
theorem DFP.colorize_only_passes_raw_room_map :
    DFP.gWall1 DFP.p11 ≠ 0 ∧
    DFP.roomMapForColorize false DFP.gRoom3 DFP.gWall1 DFP.p11 ≠ 0 ∧
    DFP.run_on_one false true DFP.rmapDemo DFP.bmapDemo DFP.gRoom3 DFP.gWall1 =
      DFP.FPResult.rgb (fun p =>
        DFP.addRGB (DFP.rmapDemo (DFP.roomMapForColorize false DFP.gRoom3 DFP.gWall1 p))
          (DFP.bmapDemo (DFP.gWall1 p))) ∧
    DFP.rmapDemo (DFP.roomMapForColorize false DFP.gRoom3 DFP.gWall1 DFP.p11) ≠
      ((0 : Nat), (0 : Nat), (0 : Nat)) ∧
    DFP.bmapDemo (DFP.gWall1 DFP.p11) ≠ ((0 : Nat), (0 : Nat), (0 : Nat)) ∧
    DFP.rmapDemo 0 = ((0 : Nat), (0 : Nat), (0 : Nat)) :=
  ⟨by decide, by decide, rfl, by decide, by decide, rfl⟩

/-- C2 amended: only the colorize+postprocess path enjoys boundary
precedence: wherever the post-processed boundary map is non-zero, the
room map handed to the room color lookup is zero at that pixel (barrier
cells receive no refined label and the footprint product keeps them at
zero), so when the room table maps label 0 to black the summed image
carries only the boundary color there.  The colorize-only path passes
the raw decoded room map unchanged, so no such exclusion is enforced on
it. -/
theorem DFP.colorize_boundary_precedence_amended {h w : Nat}
    (rmap bmap : DFP.ColorMap) (r cw : DFP.Grid h w) (p : DFP.Pos h w) :
    ((DFP.post_process r cw).2 p ≠ 0 → (DFP.post_process r cw).1 p = 0) ∧
    DFP.run_on_one true true rmap bmap r cw =
      DFP.FPResult.rgb (fun q =>
        DFP.addRGB (rmap ((DFP.post_process r cw).1 q))
          (bmap ((DFP.post_process r cw).2 q))) ∧
    ((DFP.post_process r cw).2 p ≠ 0 → rmap 0 = ((0 : Nat), (0 : Nat), (0 : Nat)) →
      DFP.addRGB (rmap ((DFP.post_process r cw).1 p))
          (bmap ((DFP.post_process r cw).2 p)) =
        bmap ((DFP.post_process r cw).2 p)) ∧
    DFP.run_on_one false true rmap bmap r cw =
      DFP.FPResult.rgb (fun q =>
        DFP.addRGB (rmap (DFP.roomMapForColorize false r cw q)) (bmap (cw q))) := by
  have hroom : (DFP.post_process r cw).2 p ≠ 0 → (DFP.post_process r cw).1 p = 0 := by
    intro hbd
    have hcw : DFP.cw_maskOf cw p ≠ 0 := by
      intro hz
      exact hbd (DFP.fill_break_line_zero_of_cw_mask cw p hz)
    have href : DFP.refine_room_region (DFP.cw_maskOf cw) r p = 0 := by
      unfold DFP.refine_room_region
      rw [if_neg hcw]
    rw [DFP.post_process_fst, href, Nat.mul_zero]
  refine ⟨hroom, rfl, ?_, rfl⟩
  intro hbd hblack
  rw [hroom hbd, hblack]
  simp [DFP.addRGB]

/-- Witness for the amended C2 at a concrete 1×1 input: the
post-processed boundary map is non-zero at the pixel and the
post-processed room map is zero there. -/
theorem DFP.colorize_boundary_precedence_amended_witness :
    (DFP.post_process DFP.gRoom3 DFP.gWall1).2 DFP.p11 ≠ 0 ∧
    (DFP.post_process DFP.gRoom3 DFP.gWall1).1 DFP.p11 = 0 :=
  ⟨by decide,
    (DFP.colorize_boundary_precedence_amended DFP.rmapDemo DFP.bmapDemo
      DFP.gRoom3 DFP.gWall1 DFP.p11).1 (by decide)⟩

/-- C10: the output shape of `run_on_one` is decided by the colorize
flag alone — with colorize=false (either postprocess setting) the result
is a 2-D `h × w` integer label image, with colorize=true a 3-D RGB image
of `h × w` RGB pixels — and, for boundary maps with the decoded value
range `{0, 1, 2}`, the sentinel remapping sends wall cells (1) to 9 and
window/door cells (2) to 10, so boundary contributions in both
non-colorized composites take values only in `{0, 9, 10}` (the
postprocess path first repairs the boundary map, which preserves the
value bound). -/
theorem DFP.output_shape_and_sentinels {h w : Nat} (pp : Bool)
    (rmap bmap : DFP.ColorMap) (r cw : DFP.Grid h w) :
    (∃ g, DFP.run_on_one pp false rmap bmap r cw = DFP.FPResult.gray g) ∧
    (∃ c, DFP.run_on_one pp true rmap bmap r cw = DFP.FPResult.rgb c) ∧
    ((∀ q, cw q ≤ 2) → ∀ p, DFP.remapBoundary cw p = 0 ∨
      DFP.remapBoundary cw p = 9 ∨ DFP.remapBoundary cw p = 10) ∧
    ((∀ q, cw q ≤ 2) → ∀ p, DFP.remapBoundary (DFP.post_process r cw).2 p = 0 ∨
      DFP.remapBoundary (DFP.post_process r cw).2 p = 9 ∨
      DFP.remapBoundary (DFP.post_process r cw).2 p = 10) := by
  refine ⟨?_, ?_, ?_, ?_⟩
  · cases pp
    · exact ⟨_, rfl⟩
    · exact ⟨_, rfl⟩
  · cases pp
    · exact ⟨_, rfl⟩
    · exact ⟨_, rfl⟩
  · intro hcw p
    exact DFP.remapBoundary_values cw p (hcw p)
  · intro hcw p
    apply DFP.remapBoundary_values
    show DFP.fill_break_line cw p ≤ 2
    exact DFP.fill_break_line_le cw 2 hcw p

/-- Witness for C10 at a concrete 1×1 boundary map with wall value 1,
which the sentinel remapping sends into `{0, 9, 10}`. -/
theorem DFP.output_shape_and_sentinels_witness :
    DFP.remapBoundary DFP.gWall1 DFP.p11 = 0 ∨
    DFP.remapBoundary DFP.gWall1 DFP.p11 = 9 ∨
    DFP.remapBoundary DFP.gWall1 DFP.p11 = 10 :=
  (DFP.output_shape_and_sentinels false DFP.rmapDemo DFP.bmapDemo
    DFP.gRoom3 DFP.gWall1).2.2.1 (by decide) DFP.p11

namespace DFP

lemma maxScore_eq_none_iff (l : List Int) : maxScore l = none ↔ l = [] := by
  cases l with
  | nil => simp [maxScore]
  | cons x xs =>
    simp only [maxScore]
    cases maxScore xs <;> simp

/-- The value of `maxScore` dominates every entry of the list. -/
lemma maxScore_ge (l : List Int) :
    ∀ M : Int, maxScore l = some M → ∀ i, i < l.length → l.getD i 0 ≤ M := by
  induction l with
  | nil => intro M hM; simp [maxScore] at hM
  | cons x xs ih =>
    intro M hM i hi
    unfold maxScore at hM
    cases hmx : maxScore xs with
    | none =>
      rw [hmx] at hM
      have hxM : x = M := by simpa using hM
      have hxs : xs = [] := (maxScore_eq_none_iff xs).mp hmx
      subst hxs
      have hi0 : i = 0 := by simpa using hi
      subst hi0
      simp [hxM]
    | some m =>
      rw [hmx] at hM
      have hM' : max x m = M := by simpa using hM
      cases i with
      | zero =>
        rw [List.getD_cons_zero, ← hM']
        exact le_max_left x m
      | succ j =>
        have hj : j < xs.length := by simpa using hi
        rw [List.getD_cons_succ, ← hM']
        exact le_trans (ih m hmx j hj) (le_max_right x m)

/-- The index `argmaxIdx` is a valid index and lands on the maximum score. -/
lemma argmax_spec (l : List Int) (hl : l ≠ []) :
    ∃ M, maxScore l = some M ∧ argmaxIdx l < l.length ∧
      l.getD (argmaxIdx l) 0 = M := by
  induction l with
  | nil => exact absurd rfl hl
  | cons x xs ih =>
    cases hmx : maxScore xs with
    | none =>
      refine ⟨x, ?_, ?_, ?_⟩
      · unfold maxScore; rw [hmx]
      · unfold argmaxIdx
        rw [hmx, Option.getD_none, if_pos (le_refl x)]
        simp
      · unfold argmaxIdx
        rw [hmx, Option.getD_none, if_pos (le_refl x), List.getD_cons_zero]
    | some m =>
      by_cases hle : m ≤ x
      · refine ⟨max x m, ?_, ?_, ?_⟩
        · unfold maxScore; rw [hmx]
        · unfold argmaxIdx
          rw [hmx, Option.getD_some, if_pos hle]
          simp
        · unfold argmaxIdx
          rw [hmx, Option.getD_some, if_pos hle, List.getD_cons_zero,
            max_eq_left hle]
      · have hxs : xs ≠ [] := by
          intro he
          rw [he] at hmx
          simp [maxScore] at hmx
        obtain ⟨M, hM, hlt, hval⟩ := ih hxs
        have hMm : M = m := by
          rw [hM] at hmx
          simpa using hmx
        refine ⟨max x m, ?_, ?_, ?_⟩
        · unfold maxScore; rw [hmx]
        · unfold argmaxIdx
          rw [hmx, Option.getD_some, if_neg hle]
          simpa using Nat.succ_lt_succ hlt
        · unfold argmaxIdx
          rw [hmx, Option.getD_some, if_neg hle, List.getD_cons_succ, hval, hMm]
          exact (max_eq_right (le_of_not_le hle)).symm

/-- The index `argmaxIdx` is the first index attaining the maximum: every earlier
entry is strictly smaller. -/
lemma argmax_first (l : List Int) :
    ∀ j, j < argmaxIdx l → l.getD j 0 < l.getD (argmaxIdx l) 0 := by
  induction l with
  | nil => intro j hj; simp [argmaxIdx] at hj
  | cons x xs ih =>
    intro j hj
    cases hmx : maxScore xs with
    | none =>
      unfold argmaxIdx at hj
      rw [hmx, Option.getD_none, if_pos (le_refl x)] at hj
      simp at hj
    | some m =>
      by_cases hle : m ≤ x
      · unfold argmaxIdx at hj
        rw [hmx, Option.getD_some, if_pos hle] at hj
        simp at hj
      · have hxs : xs ≠ [] := by
          intro he
          rw [he] at hmx
          simp [maxScore] at hmx
        obtain ⟨M, hM, hlt, hval⟩ := argmax_spec xs hxs
        have hMm : M = m := by
          rw [hM] at hmx
          simpa using hmx
        unfold argmaxIdx at hj ⊢
        rw [hmx, Option.getD_some, if_neg hle] at hj ⊢
        cases j with
        | zero =>
          rw [List.getD_cons_zero, List.getD_cons_succ, hval, hMm]
          exact not_le.mp hle
        | succ i =>
          rw [List.getD_cons_succ, List.getD_cons_succ]
          exact ih i (Nat.lt_of_succ_lt_succ hj)

end DFP

/-- C9: the Label Decoder fails with an InvalidInput error exactly when
the score tensor is not rectangular and non-empty; on every rectangular
non-empty tensor it succeeds and returns the per-cell argmax label map,
where the argmax index is a valid channel index attaining the maximum
score (first occurrence on ties). -/
theorem DFP.label_decoder_spec (t : List (List (List Int))) :
    ((DFP.convert_one_hot_to_image t = Except.error "InvalidInput") ↔
      ¬ DFP.WellFormed t) ∧
    (DFP.WellFormed t → ∃ out, DFP.convert_one_hot_to_image t = Except.ok out ∧
      out = t.map (fun row => row.map DFP.argmaxIdx)) ∧
    (∀ cell : List Int, cell ≠ [] →
      DFP.argmaxIdx cell < cell.length ∧
      (∀ m, m < cell.length →
        cell.getD m 0 ≤ cell.getD (DFP.argmaxIdx cell) 0) ∧
      (∀ m, m < DFP.argmaxIdx cell →
        cell.getD m 0 < cell.getD (DFP.argmaxIdx cell) 0)) := by
  refine ⟨?_, ?_, ?_⟩
  · unfold DFP.convert_one_hot_to_image
    split_ifs with hwf
    · simp [hwf]
    · simp [hwf]
  · intro hwf
    refine ⟨t.map (fun row => row.map DFP.argmaxIdx), ?_, rfl⟩
    unfold DFP.convert_one_hot_to_image
    rw [if_pos hwf]
  · intro cell hcell
    obtain ⟨M, hM, hlt, hval⟩ := DFP.argmax_spec cell hcell
    refine ⟨hlt, ?_, ?_⟩
    · intro m hm
      rw [hval]
      exact DFP.maxScore_ge cell M hM m hm
    · intro m hm
      exact DFP.argmax_first cell m hm

/-- Witness for C9 at the concrete 1×1×3 tensor `[[[1, 5, 2]]]`, which
is well-formed and decodes to the argmax label map. -/
theorem DFP.label_decoder_spec_witness :
    DFP.WellFormed DFP.tensDemo ∧
    (∃ out, DFP.convert_one_hot_to_image DFP.tensDemo = Except.ok out ∧
      out = DFP.tensDemo.map (fun row => row.map DFP.argmaxIdx)) :=
  ⟨by decide, (DFP.label_decoder_spec DFP.tensDemo).2.1 (by decide)⟩
